import Mathlib

/- Verification development for the swarm-chat client (history convergence,
   ref-banning fetch pipeline, retry/broadcast primitives and the send path).
   Each TypeScript function of interest is shallowly embedded as an executable
   Lean definition; external collaborators such as the storage network, the
   broadcast node and the signer are passed in as explicit oracle parameters.
   JavaScript numbers that the code only ever produces from indices and from
   Date.now are modelled as Nat; JavaScript records are modelled as
   association lists, and lookup of an absent key returns none. -/

namespace SwarmChat

/- ===================== History data model (lib/types/user.ts) ============ -/

/-- MessageEntry of lib/types/user.ts: feed index plus wall-clock timestamp. -/
structure MessageEntry where
  index : Nat
  timestamp : Nat
deriving DecidableEq

/-- ChatEvent of lib/types/user.ts: an event tag plus wall-clock timestamp. -/
structure ChatEvent where
  type : String
  timestamp : Nat
deriving DecidableEq

/-- UserHistory of lib/types/user.ts: per-address events and message entries. -/
structure UserHistory where
  events : List ChatEvent
  messageEntries : List MessageEntry
deriving DecidableEq

/-- ChatHistory of lib/types/user.ts: allTimeUsers is a record keyed by
address, modelled as an association list. -/
structure ChatHistory where
  allTimeUsers : List (String × UserHistory)
deriving DecidableEq

/- ===================== mergeUnique (modelled from the spec) ============== -/

/-- Helper for mergeUnique: the surviving element of the combined list for a
given de-duplication key, namely the member with that key whose timestamp is
maximal. Earlier elements win exact ties, which is immaterial for the two
instantiations used by the history merge because there the pair of key and
timestamp determines the whole element. -/
def bestAt {α K : Type} [DecidableEq K] (key : α → K) (ts : α → Nat) : List α → K → Option α
  | [], _ => none
  | x :: l, k =>
    match bestAt key ts l k with
    | none => if key x = k then some x else none
    | some y => if key x = k then (if ts x < ts y then some y else some x) else some y

/-- Modelled from the spec: mergeUnique is imported by the history engine from
utils/common but its implementation file is not part of the sources at hand.
The spec describes it as key-based de-duplication of the two lists where the
per-key survivor is chosen last-write-wins by timestamp, with the result
sorted ascending by timestamp and ties broken deterministically by a stable
secondary key; leb is that total element order. -/
def mergeUnique {α K : Type} [DecidableEq K]
    (key : α → K) (ts : α → Nat) (leb : α → α → Bool) (a b : List α) : List α :=
  (List.filterMap (fun k => bestAt key ts (a ++ b) k) (((a ++ b).map key).dedup)).mergeSort leb

/-- Total order used to sort merged message-entry lists: ascending timestamp,
ties broken by the feed index, the stable secondary key of the spec. -/
def meLeb (x y : MessageEntry) : Bool :=
  decide (x.timestamp < y.timestamp ∨ (x.timestamp = y.timestamp ∧ x.index ≤ y.index))

/-- De-duplication key of an event: the source keys events by the string
built from the type and the timestamp, modelled as the pair. -/
def evKey (e : ChatEvent) : String × Nat := (e.type, e.timestamp)

/-- Total order used to sort merged event lists: ascending timestamp, ties
broken by the event type string. -/
def evLeb (x y : ChatEvent) : Bool :=
  decide (x.timestamp < y.timestamp ∨ (x.timestamp = y.timestamp ∧ x.type ≤ y.type))

/-- Per-user merge body of mergeUserHistory (part_020 lines 543 to 566):
events merged by the type-and-timestamp key, message entries merged by the
feed-index key. -/
def mergeUsers (remoteUser localUser : UserHistory) : UserHistory :=
  ⟨mergeUnique evKey ChatEvent.timestamp evLeb remoteUser.events localUser.events,
   mergeUnique MessageEntry.index MessageEntry.timestamp meLeb
     remoteUser.messageEntries localUser.messageEntries⟩

/-- Per-key combination of the lodash mergeWith call in mergeUserHistory: a
key present on both sides is merged, a key present on one side keeps that
side's value unchanged. -/
def combineUsers : Option UserHistory → Option UserHistory → Option UserHistory
  | some r, some u => some (mergeUsers r u)
  | some r, none => some r
  | none, u => u

/-- Record lookup on the association-list model of a JavaScript object. -/
def userLookup : List (String × UserHistory) → String → Option UserHistory
  | [], _ => none
  | (a, u) :: rest, x => if a = x then some u else userLookup rest x

/-- String comparison used to keep the merged address lists in a canonical
order; JavaScript object key order is not observable through deep equality,
so the embedding keeps keys sorted. -/
def strLeb (s t : String) : Bool := decide (s ≤ t)

/-- mergeUserHistory (part_020 lines 542 to 570): lodash mergeWith over the
two address-keyed records, combining per address with combineUsers. -/
def mergeUserHistory (remoteUsers localUsers : List (String × UserHistory)) :
    List (String × UserHistory) :=
  (((remoteUsers.map Prod.fst) ++ (localUsers.map Prod.fst)).dedup.mergeSort strLeb).filterMap
    (fun a => (combineUsers (userLookup remoteUsers a) (userLookup localUsers a)).map
      (fun u => (a, u)))

/-- mergeChatHistory (part_020 lines 536 to 540). -/
def mergeChatHistory (remoteHistory localHistory : ChatHistory) : ChatHistory :=
  ⟨mergeUserHistory remoteHistory.allTimeUsers localHistory.allTimeUsers⟩

/- ===================== generic merge lemmas ============================== -/

/-- An element is the survivor of a list for its key: it is a member and its
timestamp dominates every member sharing its key. -/
def IsSurvivor {α K : Type} (key : α → K) (ts : α → Nat) (l : List α) (e : α) : Prop :=
  e ∈ l ∧ ∀ x ∈ l, key x = key e → ts x ≤ ts e

section MergeLemmas

variable {α K : Type} [DecidableEq K]
variable {key : α → K} {ts : α → Nat} {leb : α → α → Bool}

theorem bestAt_eq_none {l : List α} {k : K} (h : bestAt key ts l k = none) :
    ∀ e ∈ l, key e ≠ k := by
  induction l with
  | nil => simp
  | cons x l ih =>
    intro e he
    simp only [bestAt] at h
    rcases hb : bestAt key ts l k with _ | y
    · simp only [hb] at h
      by_cases hk : key x = k
      · simp [hk] at h
      · rcases List.mem_cons.mp he with rfl | hmem
        · exact hk
        · exact ih hb e hmem
    · simp only [hb] at h
      by_cases hk : key x = k
      · rw [if_pos hk] at h
        by_cases hlt : ts x < ts y
        · rw [if_pos hlt] at h
          exact absurd h (by simp)
        · rw [if_neg hlt] at h
          exact absurd h (by simp)
      · rw [if_neg hk] at h
        exact absurd h (by simp)

theorem bestAt_mem {l : List α} {k : K} {e : α} (h : bestAt key ts l k = some e) :
    e ∈ l ∧ key e = k ∧ ∀ x ∈ l, key x = k → ts x ≤ ts e := by
  induction l generalizing e with
  | nil => simp [bestAt] at h
  | cons x l ih =>
    simp only [bestAt] at h
    rcases hb : bestAt key ts l k with _ | y
    · rw [hb] at h
      by_cases hk : key x = k
      · simp only [hk, if_pos, if_true] at h
        have hx : e = x := by simpa [hk] using h.symm
        subst hx
        refine ⟨List.mem_cons_self _ _, hk, ?_⟩
        intro z hz hzk
        rcases List.mem_cons.mp hz with rfl | hmem
        · exact le_refl _
        · exact absurd hzk (bestAt_eq_none hb z hmem)
      · simp [hk] at h
    · rw [hb] at h
      obtain ⟨hym, hyk, hymax⟩ := ih hb
      by_cases hk : key x = k
      · simp only [hk, if_true] at h
        by_cases hlt : ts x < ts y
        · rw [if_pos hlt] at h
          have hy : e = y := by simpa using h.symm
          subst hy
          refine ⟨List.mem_cons_of_mem _ hym, hyk, ?_⟩
          intro z hz hzk
          rcases List.mem_cons.mp hz with rfl | hmem
          · exact le_of_lt hlt
          · exact hymax z hmem hzk
        · rw [if_neg hlt] at h
          have hx : e = x := by simpa using h.symm
          subst hx
          refine ⟨List.mem_cons_self _ _, hk, ?_⟩
          intro z hz hzk
          rcases List.mem_cons.mp hz with rfl | hmem
          · exact le_refl _
          · exact le_trans (hymax z hmem hzk) (Nat.le_of_not_lt hlt)
      · simp only [hk, if_false] at h
        have hy : e = y := by simpa using h.symm
        subst hy
        refine ⟨List.mem_cons_of_mem _ hym, hyk, ?_⟩
        intro z hz hzk
        rcases List.mem_cons.mp hz with rfl | hmem
        · exact absurd hzk hk
        · exact hymax z hmem hzk

theorem bestAt_eq_some (hdet : ∀ x y, key x = key y → ts x = ts y → x = y)
    {l : List α} {e : α} (he : e ∈ l)
    (hmax : ∀ x ∈ l, key x = key e → ts x ≤ ts e) :
    bestAt key ts l (key e) = some e := by
  induction l with
  | nil => simp at he
  | cons x l ih =>
    rcases List.mem_cons.mp he with rfl | hmem
    · simp only [bestAt]
      rcases hb : bestAt key ts l (key e) with _ | y
      · simp
      · obtain ⟨hym, hyk, _⟩ := bestAt_mem hb
        have hty : ts y ≤ ts e := hmax y (List.mem_cons_of_mem _ hym) hyk
        have hnlt : ¬ ts e < ts y := Nat.not_lt_of_le hty
        simp [hnlt]
    · have hih : bestAt key ts l (key e) = some e :=
        ih hmem (fun z hz hzk => hmax z (List.mem_cons_of_mem _ hz) hzk)
      simp only [bestAt, hih]
      by_cases hk : key x = key e
      · simp only [hk, if_true]
        by_cases hlt : ts x < ts e
        · rw [if_pos hlt]
        · rw [if_neg hlt]
          have htx : ts x ≤ ts e := hmax x (List.mem_cons_self _ _) hk
          have : ts x = ts e := Nat.le_antisymm htx (Nat.le_of_not_lt hlt)
          rw [hdet x e hk this]
      · simp [hk]

theorem bestAt_isSome_of_mem {l : List α} {x : α} (hx : x ∈ l) :
    ∃ s, bestAt key ts l (key x) = some s := by
  rcases hb : bestAt key ts l (key x) with _ | s
  · exact absurd rfl (bestAt_eq_none hb x hx)
  · exact ⟨s, rfl⟩

theorem exists_survivor {l : List α} {x : α} (hx : x ∈ l) :
    ∃ s, IsSurvivor key ts l s ∧ key s = key x := by
  have hsome : ∃ s, bestAt key ts l (key x) = some s := bestAt_isSome_of_mem hx
  obtain ⟨s, hs⟩ := hsome
  obtain ⟨hm, hk, hmax⟩ := bestAt_mem hs
  exact ⟨s, ⟨hm, fun z hz hzk => hmax z hz (hzk.trans hk)⟩, hk⟩

theorem mem_mergeUnique (hdet : ∀ x y, key x = key y → ts x = ts y → x = y)
    {a b : List α} {e : α} :
    e ∈ mergeUnique key ts leb a b ↔ IsSurvivor key ts (a ++ b) e := by
  unfold mergeUnique
  rw [(List.mergeSort_perm _ leb).mem_iff, List.mem_filterMap]
  constructor
  · rintro ⟨k, _, hbest⟩
    obtain ⟨hm, hk, hmax⟩ := bestAt_mem hbest
    exact ⟨hm, fun x hx hxk => hmax x hx (hxk.trans hk)⟩
  · rintro ⟨hm, hmax⟩
    refine ⟨key e, List.mem_dedup.mpr (List.mem_map_of_mem _ hm), ?_⟩
    exact bestAt_eq_some hdet hm hmax

theorem mergeUnique_sorted
    (htrans : ∀ x y z, leb x y = true → leb y z = true → leb x z = true)
    (htot : ∀ x y, (leb x y || leb y x) = true) (a b : List α) :
    (mergeUnique key ts leb a b).Pairwise (fun x y => leb x y = true) :=
  List.sorted_mergeSort htrans htot _

theorem mergeUnique_nodup (a b : List α) : (mergeUnique key ts leb a b).Nodup := by
  unfold mergeUnique
  rw [(List.mergeSort_perm _ leb).nodup_iff]
  refine List.Nodup.filterMap ?_ (List.nodup_dedup _)
  intro k k' e hk hk'
  obtain ⟨_, hke, _⟩ := bestAt_mem hk
  obtain ⟨_, hke', _⟩ := bestAt_mem hk'
  exact hke.symm.trans hke'

theorem mergeUnique_eq_of (hdet : ∀ x y, key x = key y → ts x = ts y → x = y)
    (htrans : ∀ x y z, leb x y = true → leb y z = true → leb x z = true)
    (htot : ∀ x y, (leb x y || leb y x) = true)
    (hanti : ∀ x y, leb x y = true → leb y x = true → x = y)
    {a b : List α} {m : List α} (hnd : m.Nodup)
    (hs : m.Pairwise (fun x y => leb x y = true))
    (hmem : ∀ e, e ∈ m ↔ IsSurvivor key ts (a ++ b) e) :
    mergeUnique key ts leb a b = m := by
  haveI : IsAntisymm α (fun x y => leb x y = true) := ⟨hanti⟩
  refine List.eq_of_perm_of_sorted ?_ (mergeUnique_sorted htrans htot a b) hs
  refine (List.perm_ext_iff_of_nodup (mergeUnique_nodup a b) hnd).mpr ?_
  intro e
  rw [mem_mergeUnique hdet, hmem]

theorem mergeUnique_comm (hdet : ∀ x y, key x = key y → ts x = ts y → x = y)
    (htrans : ∀ x y z, leb x y = true → leb y z = true → leb x z = true)
    (htot : ∀ x y, (leb x y || leb y x) = true)
    (hanti : ∀ x y, leb x y = true → leb y x = true → x = y)
    (a b : List α) :
    mergeUnique key ts leb a b = mergeUnique key ts leb b a := by
  refine mergeUnique_eq_of hdet htrans htot hanti (mergeUnique_nodup b a)
    (mergeUnique_sorted htrans htot b a) ?_
  intro e
  rw [mem_mergeUnique hdet]
  unfold IsSurvivor
  constructor
  · rintro ⟨hm, hmax⟩
    exact ⟨by simpa [List.mem_append, or_comm] using hm,
      fun x hx => hmax x (by simpa [List.mem_append, or_comm] using hx)⟩
  · rintro ⟨hm, hmax⟩
    exact ⟨by simpa [List.mem_append, or_comm] using hm,
      fun x hx => hmax x (by simpa [List.mem_append, or_comm] using hx)⟩

theorem survivor_append_merge (hdet : ∀ x y, key x = key y → ts x = ts y → x = y)
    {a b : List α} {e : α} :
    IsSurvivor key ts (a ++ mergeUnique key ts leb a b) e ↔ IsSurvivor key ts (a ++ b) e := by
  constructor
  · rintro ⟨hm, hmax⟩
    rcases List.mem_append.mp hm with ha | hM
    · refine ⟨List.mem_append.mpr (Or.inl ha), ?_⟩
      intro x hx hxk
      have hex : ∃ s, IsSurvivor key ts (a ++ b) s ∧ key s = key x := exists_survivor hx
      obtain ⟨s, hss, hsk⟩ := hex
      have hsM : s ∈ mergeUnique key ts leb a b := (mem_mergeUnique hdet).mpr hss
      have hse : ts s ≤ ts e := hmax s (List.mem_append.mpr (Or.inr hsM)) (hsk.trans hxk)
      exact le_trans (hss.2 x hx hsk.symm) hse
    · exact (mem_mergeUnique hdet).mp hM
  · rintro ⟨hm, hmax⟩
    have heM : e ∈ mergeUnique key ts leb a b := (mem_mergeUnique hdet).mpr ⟨hm, hmax⟩
    refine ⟨List.mem_append.mpr (Or.inr heM), ?_⟩
    intro x hx hxk
    rcases List.mem_append.mp hx with ha | hM
    · exact hmax x (List.mem_append.mpr (Or.inl ha)) hxk
    · exact hmax x ((mem_mergeUnique hdet).mp hM).1 hxk

theorem mergeUnique_idem (hdet : ∀ x y, key x = key y → ts x = ts y → x = y)
    (htrans : ∀ x y z, leb x y = true → leb y z = true → leb x z = true)
    (htot : ∀ x y, (leb x y || leb y x) = true)
    (hanti : ∀ x y, leb x y = true → leb y x = true → x = y)
    (a b : List α) :
    mergeUnique key ts leb a (mergeUnique key ts leb a b) = mergeUnique key ts leb a b := by
  refine mergeUnique_eq_of hdet htrans htot hanti (mergeUnique_nodup a b)
    (mergeUnique_sorted htrans htot a b) ?_
  intro e
  rw [mem_mergeUnique hdet, survivor_append_merge hdet]

theorem mergeUnique_self (hdet : ∀ x y, key x = key y → ts x = ts y → x = y)
    (htrans : ∀ x y z, leb x y = true → leb y z = true → leb x z = true)
    (htot : ∀ x y, (leb x y || leb y x) = true)
    (hanti : ∀ x y, leb x y = true → leb y x = true → x = y)
    {a : List α} (hnd : (a.map key).Nodup)
    (hs : a.Pairwise (fun x y => leb x y = true)) :
    mergeUnique key ts leb a a = a := by
  refine mergeUnique_eq_of hdet htrans htot hanti (hnd.of_map) hs ?_
  intro e
  unfold IsSurvivor
  constructor
  · intro he
    refine ⟨List.mem_append.mpr (Or.inl he), ?_⟩
    intro x hx hxk
    have hxa : x ∈ a := by
      rcases List.mem_append.mp hx with h | h <;> exact h
    have : x = e := List.inj_on_of_nodup_map hnd hxa he hxk
    exact this ▸ le_refl _
  · rintro ⟨hm, _⟩
    rcases List.mem_append.mp hm with h | h <;> exact h

end MergeLemmas

/- ===================== concrete order facts ============================== -/

theorem meDet : ∀ x y : MessageEntry, x.index = y.index → x.timestamp = y.timestamp → x = y := by
  intro x y h1 h2
  cases x
  cases y
  simp_all

theorem meTrans : ∀ x y z : MessageEntry, meLeb x y = true → meLeb y z = true → meLeb x z = true := by
  intro x y z
  simp only [meLeb, decide_eq_true_eq]
  omega

theorem meTot : ∀ x y : MessageEntry, (meLeb x y || meLeb y x) = true := by
  intro x y
  simp only [meLeb, Bool.or_eq_true, decide_eq_true_eq]
  omega

theorem meAnti : ∀ x y : MessageEntry, meLeb x y = true → meLeb y x = true → x = y := by
  intro x y h1 h2
  simp only [meLeb, decide_eq_true_eq] at h1 h2
  cases x
  cases y
  simp_all only [MessageEntry.mk.injEq]
  omega

theorem evDet : ∀ x y : ChatEvent, evKey x = evKey y → x.timestamp = y.timestamp → x = y := by
  intro x y h1 _
  cases x
  cases y
  simp_all [evKey]

theorem evTrans : ∀ x y z : ChatEvent, evLeb x y = true → evLeb y z = true → evLeb x z = true := by
  intro x y z h1 h2
  simp only [evLeb, decide_eq_true_eq] at h1 h2 ⊢
  rcases h1 with h1 | ⟨h1, h1s⟩
  · rcases h2 with h2 | ⟨h2, _⟩
    · exact Or.inl (lt_trans h1 h2)
    · exact Or.inl (h2 ▸ h1)
  · rcases h2 with h2 | ⟨h2, h2s⟩
    · exact Or.inl (h1 ▸ h2)
    · exact Or.inr ⟨h1.trans h2, le_trans h1s h2s⟩

theorem evTot : ∀ x y : ChatEvent, (evLeb x y || evLeb y x) = true := by
  intro x y
  simp only [evLeb, Bool.or_eq_true, decide_eq_true_eq]
  rcases Nat.lt_trichotomy x.timestamp y.timestamp with h | h | h
  · exact Or.inl (Or.inl h)
  · rcases le_total x.type y.type with hs | hs
    · exact Or.inl (Or.inr ⟨h, hs⟩)
    · exact Or.inr (Or.inr ⟨h.symm, hs⟩)
  · exact Or.inr (Or.inl h)

theorem evAnti : ∀ x y : ChatEvent, evLeb x y = true → evLeb y x = true → x = y := by
  intro x y h1 h2
  simp only [evLeb, decide_eq_true_eq] at h1 h2
  have ht : x.timestamp = y.timestamp := by omega
  have hs : x.type = y.type := by
    rcases h1 with h1 | ⟨_, h1s⟩
    · omega
    · rcases h2 with h2 | ⟨_, h2s⟩
      · omega
      · exact le_antisymm h1s h2s
  cases x
  cases y
  simp_all

theorem strTrans : ∀ x y z : String, strLeb x y = true → strLeb y z = true → strLeb x z = true := by
  intro x y z h1 h2
  simp only [strLeb, decide_eq_true_eq] at h1 h2 ⊢
  exact le_trans h1 h2

theorem strTot : ∀ x y : String, (strLeb x y || strLeb y x) = true := by
  intro x y
  simp only [strLeb, Bool.or_eq_true, decide_eq_true_eq]
  exact le_total x y

theorem strAnti : ∀ x y : String, strLeb x y = true → strLeb y x = true → x = y := by
  intro x y h1 h2
  simp only [strLeb, decide_eq_true_eq] at h1 h2
  exact le_antisymm h1 h2

/- ===================== canonical snapshots =============================== -/

/-- The HistorySnapshot invariant of the spec for one user: both lists are
kept sorted ascending by timestamp with the deterministic tie-break, and hold
at most one element per de-duplication key. -/
def CanonUser (u : UserHistory) : Prop :=
  u.events.Pairwise (fun x y => evLeb x y = true) ∧ (u.events.map evKey).Nodup ∧
  u.messageEntries.Pairwise (fun x y => meLeb x y = true) ∧
  (u.messageEntries.map MessageEntry.index).Nodup

instance (u : UserHistory) : Decidable (CanonUser u) := by
  unfold CanonUser
  infer_instance

/-- The HistorySnapshot invariant of the spec: every recorded user satisfies
the per-user invariant. -/
def CanonHistory (h : ChatHistory) : Prop := ∀ p ∈ h.allTimeUsers, CanonUser p.2

instance (h : ChatHistory) : Decidable (CanonHistory h) := by
  unfold CanonHistory
  infer_instance

/- ===================== user-level merge lemmas =========================== -/

theorem mergeUsers_merge_idem (r u : UserHistory) :
    mergeUsers r (mergeUsers r u) = mergeUsers r u := by
  unfold mergeUsers
  simp only [UserHistory.mk.injEq]
  exact ⟨mergeUnique_idem evDet evTrans evTot evAnti _ _,
    mergeUnique_idem meDet meTrans meTot meAnti _ _⟩

theorem mergeUsers_self (u : UserHistory) (hu : CanonUser u) : mergeUsers u u = u := by
  obtain ⟨h1, h2, h3, h4⟩ := hu
  cases u with
  | mk ev me =>
    unfold mergeUsers
    simp only [UserHistory.mk.injEq]
    exact ⟨mergeUnique_self evDet evTrans evTot evAnti h2 h1,
      mergeUnique_self meDet meTrans meTot meAnti h4 h3⟩

theorem mergeUsers_comm (r u : UserHistory) : mergeUsers r u = mergeUsers u r := by
  unfold mergeUsers
  simp only [UserHistory.mk.injEq]
  exact ⟨mergeUnique_comm evDet evTrans evTot evAnti _ _,
    mergeUnique_comm meDet meTrans meTot meAnti _ _⟩

/- ===================== map-level lemmas ================================== -/

theorem userLookup_mem {m : List (String × UserHistory)} {x : String} {u : UserHistory}
    (h : userLookup m x = some u) : (x, u) ∈ m := by
  induction m with
  | nil => simp [userLookup] at h
  | cons p rest ih =>
    obtain ⟨a, v⟩ := p
    simp only [userLookup] at h
    by_cases hax : a = x
    · rw [if_pos hax] at h
      subst hax
      obtain rfl : v = u := by simpa using h
      exact List.mem_cons_self _ _
    · rw [if_neg hax] at h
      exact List.mem_cons_of_mem _ (ih h)

theorem userLookup_isSome_of_mem {m : List (String × UserHistory)} {x : String}
    (h : x ∈ m.map Prod.fst) : (userLookup m x).isSome := by
  induction m with
  | nil => simp at h
  | cons p rest ih =>
    obtain ⟨a, v⟩ := p
    simp only [userLookup]
    by_cases hax : a = x
    · simp [hax]
    · rw [if_neg hax]
      refine ih ?_
      simp only [List.map_cons, List.mem_cons] at h
      rcases h with h | h
      · exact absurd h.symm hax
      · exact h

theorem userLookup_eq_none_of_not_mem {m : List (String × UserHistory)} {x : String}
    (h : x ∉ m.map Prod.fst) : userLookup m x = none := by
  induction m with
  | nil => rfl
  | cons p rest ih =>
    obtain ⟨a, v⟩ := p
    simp only [List.map_cons, List.mem_cons, not_or] at h
    have hax : ¬ a = x := fun hh => h.1 hh.symm
    simp only [userLookup, if_neg hax]
    exact ih h.2

theorem userLookup_build (addrs : List String) (f : String → Option UserHistory) (x : String)
    (hnd : addrs.Nodup) :
    userLookup (addrs.filterMap (fun a => (f a).map (fun u => (a, u)))) x
      = if x ∈ addrs then f x else none := by
  induction addrs with
  | nil => simp [userLookup]
  | cons a rest ih =>
    have hna : a ∉ rest := (List.nodup_cons.mp hnd).1
    have hnd' : rest.Nodup := (List.nodup_cons.mp hnd).2
    rcases hfa : f a with _ | u
    · rw [List.filterMap_cons]
      simp only [hfa, Option.map_none']
      rw [ih hnd']
      by_cases hx : x = a
      · subst hx
        simp [hna, hfa]
      · simp [hx]
    · rw [List.filterMap_cons]
      simp only [hfa, Option.map_some']
      simp only [userLookup]
      by_cases hax : a = x
      · subst hax
        simp [hfa]
      · rw [if_neg hax, ih hnd']
        have hx : (x ∈ a :: rest) ↔ x ∈ rest := by
          constructor
          · intro hc
            rcases List.mem_cons.mp hc with rfl | hc
            · exact absurd rfl hax
            · exact hc
          · exact fun hc => List.mem_cons_of_mem _ hc
        by_cases hxr : x ∈ rest
        · rw [if_pos hxr, if_pos (hx.mpr hxr)]
        · rw [if_neg hxr, if_neg (fun hc => hxr (hx.mp hc))]

theorem combine_isSome {r l : List (String × UserHistory)} {x : String}
    (h : x ∈ r.map Prod.fst ∨ x ∈ l.map Prod.fst) :
    (combineUsers (userLookup r x) (userLookup l x)).isSome := by
  rcases hr : userLookup r x with _ | u
  · rcases hl : userLookup l x with _ | v
    · rcases h with h | h
      · exact absurd (userLookup_isSome_of_mem h) (by simp [hr])
      · exact absurd (userLookup_isSome_of_mem h) (by simp [hl])
    · simp [combineUsers]
  · rcases hl : userLookup l x with _ | v <;> simp [combineUsers]

theorem mergeAddrs_nodup (r l : List (String × UserHistory)) :
    (((r.map Prod.fst) ++ (l.map Prod.fst)).dedup.mergeSort strLeb).Nodup :=
  ((List.mergeSort_perm _ strLeb).nodup_iff).mpr (List.nodup_dedup _)

theorem mem_mergeAddrs {r l : List (String × UserHistory)} {x : String} :
    x ∈ ((r.map Prod.fst) ++ (l.map Prod.fst)).dedup.mergeSort strLeb
      ↔ x ∈ r.map Prod.fst ∨ x ∈ l.map Prod.fst := by
  rw [(List.mergeSort_perm _ strLeb).mem_iff, List.mem_dedup, List.mem_append]

theorem userLookup_mergeUserHistory (r l : List (String × UserHistory)) (x : String) :
    userLookup (mergeUserHistory r l) x = combineUsers (userLookup r x) (userLookup l x) := by
  unfold mergeUserHistory
  rw [userLookup_build _ _ _ (mergeAddrs_nodup r l)]
  by_cases hx : x ∈ ((r.map Prod.fst) ++ (l.map Prod.fst)).dedup.mergeSort strLeb
  · rw [if_pos hx]
  · rw [if_neg hx]
    rw [mem_mergeAddrs, not_or] at hx
    rw [userLookup_eq_none_of_not_mem hx.1, userLookup_eq_none_of_not_mem hx.2]
    rfl

theorem keys_build (addrs : List String) (f : String → Option UserHistory)
    (h : ∀ a ∈ addrs, (f a).isSome) :
    (addrs.filterMap (fun a => (f a).map (fun u => (a, u)))).map Prod.fst = addrs := by
  induction addrs with
  | nil => rfl
  | cons a rest ih =>
    rcases hfa : f a with _ | u
    · exact absurd (h a (List.mem_cons_self _ _)) (by simp [hfa])
    · rw [List.filterMap_cons]
      simp only [hfa, Option.map_some']
      rw [List.map_cons]
      rw [ih (fun b hb => h b (List.mem_cons_of_mem _ hb))]

theorem keys_mergeUserHistory (r l : List (String × UserHistory)) :
    (mergeUserHistory r l).map Prod.fst
      = ((r.map Prod.fst) ++ (l.map Prod.fst)).dedup.mergeSort strLeb := by
  unfold mergeUserHistory
  apply keys_build
  intro a ha
  exact combine_isSome (mem_mergeAddrs.mp ha)

theorem sortedKeys_ext (l1 l2 : List String) (h : ∀ x, x ∈ l1 ↔ x ∈ l2) :
    l1.dedup.mergeSort strLeb = l2.dedup.mergeSort strLeb := by
  haveI : IsAntisymm String (fun s t => strLeb s t = true) := ⟨strAnti⟩
  refine List.eq_of_perm_of_sorted ?_ (List.sorted_mergeSort strTrans strTot _)
    (List.sorted_mergeSort strTrans strTot _)
  refine (List.perm_ext_iff_of_nodup
    (((List.mergeSort_perm _ strLeb).nodup_iff).mpr (List.nodup_dedup _))
    (((List.mergeSort_perm _ strLeb).nodup_iff).mpr (List.nodup_dedup _))).mpr ?_
  intro x
  rw [(List.mergeSort_perm _ strLeb).mem_iff, (List.mergeSort_perm _ strLeb).mem_iff,
    List.mem_dedup, List.mem_dedup]
  exact h x

/- ===================== C1 and C2 ========================================= -/

/-- C1. Idempotent merge: for canonical history snapshots A and B, in the
sense of the HistorySnapshot invariant of the spec, merging A into the
already-merged result is a no-op: mergeChatHistory A (mergeChatHistory A B)
equals mergeChatHistory A B. -/
theorem mergeChatHistory_idem (A B : ChatHistory)
    (hA : CanonHistory A) (hB : CanonHistory B) :
    mergeChatHistory A (mergeChatHistory A B) = mergeChatHistory A B := by
  clear hB
  unfold mergeChatHistory
  simp only [ChatHistory.mk.injEq]
  have haddr :
      (((A.allTimeUsers.map Prod.fst)
          ++ ((mergeUserHistory A.allTimeUsers B.allTimeUsers).map Prod.fst)).dedup.mergeSort strLeb)
        = (((A.allTimeUsers.map Prod.fst) ++ (B.allTimeUsers.map Prod.fst)).dedup.mergeSort strLeb) := by
    apply sortedKeys_ext
    intro x
    rw [List.mem_append, List.mem_append, keys_mergeUserHistory, mem_mergeAddrs]
    tauto
  conv_lhs => rw [mergeUserHistory]
  rw [haddr]
  conv_rhs => rw [mergeUserHistory]
  apply List.filterMap_congr
  intro a _
  rw [userLookup_mergeUserHistory]
  rcases hra : userLookup A.allTimeUsers a with _ | r
  · rfl
  · rcases hlb : userLookup B.allTimeUsers a with _ | u
    · have hcanon : CanonUser r := hA (a, r) (userLookup_mem hra)
      show (some (mergeUsers r r)).map (fun v => (a, v)) = (some r).map (fun v => (a, v))
      rw [mergeUsers_self r hcanon]
    · show (some (mergeUsers r (mergeUsers r u))).map (fun v => (a, v))
        = (some (mergeUsers r u)).map (fun v => (a, v))
      rw [mergeUsers_merge_idem]

/-- C2. Merge commutativity up to key-based de-duplication: at every address
the merged user record is the same regardless of argument order, hence in
particular the per-key survivor of colliding entries is identical and ties
are broken deterministically. -/
theorem mergeChatHistory_comm_lookup (A B : ChatHistory) (a : String) :
    userLookup (mergeChatHistory A B).allTimeUsers a
      = userLookup (mergeChatHistory B A).allTimeUsers a := by
  show userLookup (mergeUserHistory A.allTimeUsers B.allTimeUsers) a
      = userLookup (mergeUserHistory B.allTimeUsers A.allTimeUsers) a
  rw [userLookup_mergeUserHistory, userLookup_mergeUserHistory]
  rcases userLookup A.allTimeUsers a with _ | r
  · rcases userLookup B.allTimeUsers a with _ | u <;> rfl
  · rcases userLookup B.allTimeUsers a with _ | u
    · rfl
    · show some (mergeUsers r u) = some (mergeUsers u r)
      rw [mergeUsers_comm]

/-- Closed instance discharging the hypotheses of mergeChatHistory_idem on
concrete canonical snapshots. -/
theorem mergeChatHistory_idem_witness :
    CanonHistory (ChatHistory.mk [("a", ⟨[⟨"joined", 1⟩], [⟨0, 5⟩]⟩)])
      ∧ CanonHistory (ChatHistory.mk [("b", ⟨[], [⟨0, 7⟩, ⟨1, 9⟩]⟩)])
      ∧ mergeChatHistory (ChatHistory.mk [("a", ⟨[⟨"joined", 1⟩], [⟨0, 5⟩]⟩)])
          (mergeChatHistory (ChatHistory.mk [("a", ⟨[⟨"joined", 1⟩], [⟨0, 5⟩]⟩)])
            (ChatHistory.mk [("b", ⟨[], [⟨0, 7⟩, ⟨1, 9⟩]⟩)]))
        = mergeChatHistory (ChatHistory.mk [("a", ⟨[⟨"joined", 1⟩], [⟨0, 5⟩]⟩)])
            (ChatHistory.mk [("b", ⟨[], [⟨0, 7⟩, ⟨1, 9⟩]⟩)]) :=
  ⟨by decide, by decide,
    mergeChatHistory_idem _ _ (by decide) (by decide)⟩

/- ===================== Ref ledger (part_020 lines 156 to 207) =========== -/

/-- Downloaded chat message as far as the ref pipeline observes it: an
identifier plus the verdict of the schema validator, which is abstracted to
one bit because the pipeline only branches on it. -/
structure MessageData where
  id : Nat
  valid : Bool
deriving DecidableEq

/-- validateMessageState of utils/validation.ts: a state is valid when every
contained message passes the schema check. -/
def validateMessageState (ms : List MessageData) : Bool := ms.all (fun m => m.valid)

/-- MAX_RETRIES of the SwarmHistory ref ledger. -/
def MAX_RETRIES : Nat := 3

/-- The mutable ref-ledger fields of SwarmHistory: processedRefs,
refRetryCount and bannedRefs. -/
structure RefState where
  processedRefs : List String
  refRetryCount : List (String × Nat)
  bannedRefs : List String
deriving DecidableEq

/-- Map.get on the retry-count map. -/
def recordGet : List (String × Nat) → String → Option Nat
  | [], _ => none
  | (r, n) :: rest, x => if r = x then some n else recordGet rest x

/-- Map.set on the retry-count map. -/
def recordSet : List (String × Nat) → String → Nat → List (String × Nat)
  | [], x, n => [(x, n)]
  | (r, m) :: rest, x, n => if r = x then (x, n) :: rest else (r, m) :: recordSet rest x n

/-- Map.delete on the retry-count map. -/
def recordDel : List (String × Nat) → String → List (String × Nat)
  | [], _ => []
  | (r, m) :: rest, x => if r = x then recordDel rest x else (r, m) :: recordDel rest x

theorem recordGet_set (m : List (String × Nat)) (x : String) (n : Nat) :
    recordGet (recordSet m x n) x = some n := by
  induction m with
  | nil => simp [recordSet, recordGet]
  | cons p rest ih =>
    obtain ⟨r, v⟩ := p
    by_cases hr : r = x
    · simp [recordSet, recordGet, hr]
    · simp [recordSet, recordGet, hr, ih]

theorem recordGet_del (m : List (String × Nat)) (x : String) :
    recordGet (recordDel m x) x = none := by
  induction m with
  | nil => rfl
  | cons p rest ih =>
    obtain ⟨r, v⟩ := p
    by_cases hr : r = x
    · simp [recordDel, hr, ih]
    · simp [recordDel, recordGet, hr, ih]

/-- Combined outcome of one attempt of processMessageRef: the download of the
ref followed by schema validation; none models the thrown error in either
step. The oracle download is indexed by the running number of downloader
invocations. -/
def attemptResult (download : Nat → Except String (List MessageData)) (k : Nat) :
    Option (List MessageData) :=
  match download k with
  | Except.error _ => none
  | Except.ok ms => if validateMessageState ms then some ms else none

/-- processMessageRefWithRetry together with its inlined error path
handleRefError (part_020 lines 156 to 207). Returns the new ledger state, the
number of downloader invocations performed, and the emitted messages. The
exponential sleep of handleRefError has no effect on the ledger and is not
tracked. -/
def processMessageRefWithRetry (download : Nat → Except String (List MessageData))
    (st : RefState) (ref : String) (k : Nat) : RefState × Nat × List MessageData :=
  if ref ∈ st.processedRefs ∨ ref ∈ st.bannedRefs then (st, 0, [])
  else
    match attemptResult download k with
    | some ms =>
      (⟨ref :: st.processedRefs, recordDel st.refRetryCount ref, st.bannedRefs⟩, 1, ms)
    | none =>
      let current := (recordGet st.refRetryCount ref).getD 0
      if MAX_RETRIES ≤ current + 1 then
        (⟨st.processedRefs, recordDel st.refRetryCount ref, ref :: st.bannedRefs⟩, 1, [])
      else
        let res := processMessageRefWithRetry download
          ⟨st.processedRefs, recordSet st.refRetryCount ref (current + 1), st.bannedRefs⟩
          ref (k + 1)
        (res.1, res.2.1 + 1, res.2.2)
termination_by MAX_RETRIES - (recordGet st.refRetryCount ref).getD 0
decreasing_by
  simp only [recordGet_set, Option.getD_some]
  omega

theorem processStep_skip {download : Nat → Except String (List MessageData)}
    {st : RefState} {ref : String} {k : Nat}
    (h : ref ∈ st.processedRefs ∨ ref ∈ st.bannedRefs) :
    processMessageRefWithRetry download st ref k = (st, 0, []) := by
  rw [processMessageRefWithRetry]
  simp [h]

theorem processStep_fail {download : Nat → Except String (List MessageData)}
    {st : RefState} {ref : String} {k : Nat} {c : Nat}
    (hp : ref ∉ st.processedRefs) (hb : ref ∉ st.bannedRefs)
    (hfailk : attemptResult download k = none)
    (hcount : (recordGet st.refRetryCount ref).getD 0 = c) (hlt : c + 1 < MAX_RETRIES) :
    processMessageRefWithRetry download st ref k
      = ((processMessageRefWithRetry download
            ⟨st.processedRefs, recordSet st.refRetryCount ref (c + 1), st.bannedRefs⟩
            ref (k + 1)).1,
         (processMessageRefWithRetry download
            ⟨st.processedRefs, recordSet st.refRetryCount ref (c + 1), st.bannedRefs⟩
            ref (k + 1)).2.1 + 1,
         (processMessageRefWithRetry download
            ⟨st.processedRefs, recordSet st.refRetryCount ref (c + 1), st.bannedRefs⟩
            ref (k + 1)).2.2) := by
  rw [processMessageRefWithRetry]
  rw [if_neg (by tauto)]
  rw [hfailk]
  simp only [hcount]
  rw [if_neg (by omega)]

theorem processStep_ban {download : Nat → Except String (List MessageData)}
    {st : RefState} {ref : String} {k : Nat} {c : Nat}
    (hp : ref ∉ st.processedRefs) (hb : ref ∉ st.bannedRefs)
    (hfailk : attemptResult download k = none)
    (hcount : (recordGet st.refRetryCount ref).getD 0 = c) (hge : MAX_RETRIES ≤ c + 1) :
    processMessageRefWithRetry download st ref k
      = (⟨st.processedRefs, recordDel st.refRetryCount ref, ref :: st.bannedRefs⟩, 1, []) := by
  rw [processMessageRefWithRetry]
  rw [if_neg (by tauto)]
  rw [hfailk]
  simp only [hcount]
  rw [if_pos hge]

/-- C3. Ref banning bound: for a reference whose processing fails on every
attempt, starting from a state in which the reference is fresh, the call
invokes the downloader exactly MAX_RETRIES times, that is 3 times, leaves the
reference banned with its retry count cleared, and any call on a state in
which the reference is banned returns the state unchanged with zero
downloader invocations and no emission. -/
theorem refBanningBound (download : Nat → Except String (List MessageData))
    (st : RefState) (ref : String) (k : Nat)
    (hfail : ∀ j, attemptResult download j = none)
    (hp : ref ∉ st.processedRefs) (hb : ref ∉ st.bannedRefs)
    (hc : recordGet st.refRetryCount ref = none) :
    (processMessageRefWithRetry download st ref k).2.1 = MAX_RETRIES
    ∧ ref ∈ (processMessageRefWithRetry download st ref k).1.bannedRefs
    ∧ recordGet (processMessageRefWithRetry download st ref k).1.refRetryCount ref = none
    ∧ (processMessageRefWithRetry download st ref k).2.2 = []
    ∧ ∀ (st2 : RefState) (j : Nat), ref ∈ st2.bannedRefs →
        processMessageRefWithRetry download st2 ref j = (st2, 0, []) := by
  have hstep1 := @processStep_fail download st ref k 0
    hp hb (hfail k) (by simp [hc]) (by simp [MAX_RETRIES])
  set st1 : RefState :=
    ⟨st.processedRefs, recordSet st.refRetryCount ref 1, st.bannedRefs⟩ with hst1
  have hstep2 := @processStep_fail download st1 ref (k + 1) 1
    hp hb (hfail (k + 1)) (by simp [hst1, recordGet_set]) (by simp [MAX_RETRIES])
  set st2 : RefState :=
    ⟨st.processedRefs, recordSet (recordSet st.refRetryCount ref 1) ref 2,
      st.bannedRefs⟩ with hst2
  have hstep3 := @processStep_ban download st2 ref (k + 1 + 1) 2
    hp hb (hfail (k + 1 + 1)) (by simp [hst2, recordGet_set]) (by simp [MAX_RETRIES])
  have hrun : processMessageRefWithRetry download st ref k
      = (⟨st.processedRefs,
          recordDel (recordSet (recordSet st.refRetryCount ref 1) ref 2) ref,
          ref :: st.bannedRefs⟩, 3, []) := by
    rw [hstep1, hstep2, hstep3]
  refine ⟨by rw [hrun]; rfl, by rw [hrun]; exact List.mem_cons_self _ _,
    by rw [hrun]; exact recordGet_del _ _, by rw [hrun], ?_⟩
  intro s2 j hmem
  exact processStep_skip (Or.inr hmem)

/-- Closed instance discharging the hypotheses of refBanningBound: a
downloader that always fails, applied to the empty ledger. -/
theorem refBanningBound_witness :
    (∀ j, attemptResult (fun _ => Except.error "boom") j = none)
    ∧ (processMessageRefWithRetry (fun _ => Except.error "boom") ⟨[], [], []⟩ "r" 0).2.1
        = MAX_RETRIES
    ∧ "r" ∈ (processMessageRefWithRetry (fun _ => Except.error "boom")
        ⟨[], [], []⟩ "r" 0).1.bannedRefs :=
  ⟨fun _ => rfl,
    (refBanningBound (fun _ => Except.error "boom") ⟨[], [], []⟩ "r" 0
      (fun _ => rfl) (by simp) (by simp) rfl).1,
    (refBanningBound (fun _ => Except.error "boom") ⟨[], [], []⟩ "r" 0
      (fun _ => rfl) (by simp) (by simp) rfl).2.1⟩

/- ===================== retryAwaitableAsync (utils/common.ts 19 to 41) ==== -/

/-- retryAwaitableAsync of utils/common.ts. The oracle results gives the
outcome of the j-th invocation of fn. Returns the settled value, the total
number of invocations of fn, and the list of waited delays. -/
def retryAwaitableAsync {E T : Type} (results : Nat → Except E T) (retries : Nat) (delay : Nat)
    (k : Nat) : Except E T × Nat × List Nat :=
  match results k with
  | Except.ok v => (Except.ok v, 1, [])
  | Except.error e =>
    match retries with
    | 0 => (Except.error e, 1, [])
    | r + 1 =>
      let res := retryAwaitableAsync results r delay (k + 1)
      (res.1, res.2.1 + 1, delay :: res.2.2)

theorem retryAwaitableAsync_fail_zero {E T : Type} {results : Nat → Except E T}
    {delay k : Nat} {e : E} (he : results k = Except.error e) :
    retryAwaitableAsync results 0 delay k = (Except.error e, 1, []) := by
  rw [retryAwaitableAsync, he]

theorem retryAwaitableAsync_fail_succ {E T : Type} {results : Nat → Except E T}
    {r delay k : Nat} {e : E} (he : results k = Except.error e) :
    retryAwaitableAsync results (r + 1) delay k
      = ((retryAwaitableAsync results r delay (k + 1)).1,
         (retryAwaitableAsync results r delay (k + 1)).2.1 + 1,
         delay :: (retryAwaitableAsync results r delay (k + 1)).2.2) := by
  rw [retryAwaitableAsync, he]

/-- C9 counterexample: with the default retries argument 3 and an operation
failing on every invocation, fn is invoked 4 times, not 3, so the claim that
the operation is invoked a total of maxAttempts times is false. -/
theorem retryAwaitableAsync_count_cex :
    (retryAwaitableAsync (fun _ => (Except.error 0 : Except Nat Unit)) 3 250 0).2.1 = 4
    ∧ (4 : Nat) ≠ 3 := by
  decide

/-- C9 amended: retryAwaitableAsync waits a flat constant delay between
attempts, and for an operation failing on every invocation it invokes the
operation retries plus one times in total, one initial call plus retries
retries, and settles with the error of the last invocation. -/
theorem retryAwaitableAsync_allFail {E T : Type} (results : Nat → Except E T)
    (retries delay k : Nat) (hfail : ∀ j, ∃ e, results j = Except.error e) :
    (retryAwaitableAsync results retries delay k).2.1 = retries + 1
    ∧ (retryAwaitableAsync results retries delay k).1 = results (k + retries)
    ∧ (retryAwaitableAsync results retries delay k).2.2 = List.replicate retries delay := by
  induction retries generalizing k with
  | zero =>
    obtain ⟨e, he⟩ := hfail k
    rw [retryAwaitableAsync_fail_zero he]
    exact ⟨rfl, by rw [Nat.add_zero, he], rfl⟩
  | succ r ih =>
    obtain ⟨e, he⟩ := hfail k
    obtain ⟨ih1, ih2, ih3⟩ := ih (k + 1)
    rw [retryAwaitableAsync_fail_succ he]
    refine ⟨by rw [ih1], ?_, by rw [ih3, List.replicate_succ]⟩
    show (retryAwaitableAsync results r delay (k + 1)).1 = results (k + (r + 1))
    rw [ih2]
    have harith : k + 1 + r = k + (r + 1) := by omega
    rw [harith]

/-- Closed instance discharging the hypothesis of retryAwaitableAsync_allFail
on a concrete always-failing operation. -/
theorem retryAwaitableAsync_allFail_witness :
    (retryAwaitableAsync (fun _ => (Except.error 7 : Except Nat Unit)) 3 250 0).2.1 = 3 + 1 :=
  (retryAwaitableAsync_allFail (fun _ => (Except.error 7 : Except Nat Unit)) 3 250 0
    (fun _ => ⟨7, rfl⟩)).1

/- ===================== waitForBroadcast (utils/waitForBroadcast.ts) ====== -/

/-- The checkCondition loop of waitForBroadcast (lines 17 to 47): condition
is checked first; if satisfied the promise resolves, otherwise once the
counter has exhausted maxRetries it rejects with the timeout error, and
otherwise broadcast is invoked, the loop sleeps intervalMs and re-enters.
The oracle condition gives the value of the i-th condition check; the second
component of the result counts broadcast invocations. -/
def waitForBroadcastLoop (condition : Nat → Bool) (maxRetries counter i : Nat) :
    Except String Unit × Nat :=
  if condition i then (Except.ok (), 0)
  else if maxRetries ≤ counter then (Except.error "Broadcast timeout", 0)
  else
    let res := waitForBroadcastLoop condition maxRetries (counter + 1) (i + 1)
    (res.1, res.2 + 1)
termination_by maxRetries + 1 - counter
decreasing_by omega

/-- waitForBroadcast of utils/waitForBroadcast.ts: enters the check loop with
the counter at zero. In the source the defaults are maxRetries five and
intervalMs two thousand. -/
def waitForBroadcast (condition : Nat → Bool) (maxRetries : Nat) : Except String Unit × Nat :=
  waitForBroadcastLoop condition maxRetries 0 0

theorem wfbLoop_true {condition : Nat → Bool} {m c i : Nat} (h : condition i = true) :
    waitForBroadcastLoop condition m c i = (Except.ok (), 0) := by
  rw [waitForBroadcastLoop, if_pos h]

theorem wfbLoop_timeout {condition : Nat → Bool} {m c i : Nat} (h : condition i = false)
    (hc : m ≤ c) :
    waitForBroadcastLoop condition m c i = (Except.error "Broadcast timeout", 0) := by
  rw [waitForBroadcastLoop]
  simp [h, hc]

theorem wfbLoop_step {condition : Nat → Bool} {m c i : Nat} (h : condition i = false)
    (hc : c < m) :
    waitForBroadcastLoop condition m c i
      = ((waitForBroadcastLoop condition m (c + 1) (i + 1)).1,
         (waitForBroadcastLoop condition m (c + 1) (i + 1)).2 + 1) := by
  rw [waitForBroadcastLoop]
  simp [h, Nat.not_le_of_lt hc]

theorem wfbLoop_diag_success (condition : Nat → Bool) (m j0 : Nat)
    (htrue : condition j0 = true) (hle : j0 ≤ m) :
    ∀ d i, i + d = j0 → (∀ j, i ≤ j → j < j0 → condition j = false) →
      waitForBroadcastLoop condition m i i = (Except.ok (), d) := by
  intro d
  induction d with
  | zero =>
    intro i hi _
    have : i = j0 := by omega
    subst this
    exact wfbLoop_true htrue
  | succ n ih =>
    intro i hi hfalse
    have hfi : condition i = false := hfalse i (le_refl _) (by omega)
    have hcm : i < m := by omega
    rw [wfbLoop_step hfi hcm]
    rw [ih (i + 1) (by omega) (fun j hj hj2 => hfalse j (by omega) hj2)]

theorem wfbLoop_diag_timeout (condition : Nat → Bool) (m : Nat)
    (hfalse : ∀ j ≤ m, condition j = false) :
    ∀ d i, i + d = m →
      waitForBroadcastLoop condition m i i = (Except.error "Broadcast timeout", d) := by
  intro d
  induction d with
  | zero =>
    intro i hi
    exact wfbLoop_timeout (hfalse i (by omega)) (by omega)
  | succ n ih =>
    intro i hi
    have hfi : condition i = false := hfalse i (by omega)
    have hcm : i < m := by omega
    rw [wfbLoop_step hfi hcm]
    rw [ih (i + 1) (by omega)]

/-- C5 counterexample: when the condition already holds at the first check,
waitForBroadcast resolves without ever invoking broadcast, so the claim that
every call invokes broadcast once immediately before checking the condition
is false. -/
theorem waitForBroadcast_cex :
    (waitForBroadcast (fun _ => true) 5).2 = 0 ∧ (0 : Nat) ≠ 1
    ∧ (waitForBroadcast (fun _ => true) 5).1 = Except.ok () := by
  refine ⟨?_, by decide, ?_⟩ <;> rw [waitForBroadcast, wfbLoop_true rfl]

/-- C5 amended: each loop iteration checks the condition first and resolves
as soon as it is true, having invoked broadcast once per previously failed
check; if the condition holds at the initial check, broadcast is never
invoked; and when the condition stays false through the check after the
maxRetries-th broadcast, the call rejects with the broadcast timeout error
after exactly maxRetries broadcast invocations. -/
theorem waitForBroadcast_spec (condition : Nat → Bool) (maxRetries j0 : Nat) :
    (condition 0 = true → waitForBroadcast condition maxRetries = (Except.ok (), 0))
    ∧ ((∀ j < j0, condition j = false) → condition j0 = true → j0 ≤ maxRetries →
        waitForBroadcast condition maxRetries = (Except.ok (), j0))
    ∧ ((∀ j ≤ maxRetries, condition j = false) →
        waitForBroadcast condition maxRetries
          = (Except.error "Broadcast timeout", maxRetries)) := by
  refine ⟨fun h => by rw [waitForBroadcast, wfbLoop_true h], ?_, ?_⟩
  · intro hfalse htrue hle
    rw [waitForBroadcast]
    exact wfbLoop_diag_success condition maxRetries j0 htrue hle j0 0 (by omega)
      (fun j _ hj => hfalse j hj)
  · intro hfalse
    rw [waitForBroadcast]
    exact wfbLoop_diag_timeout condition maxRetries hfalse maxRetries 0 (by omega)

/-- Closed instance discharging the hypotheses of waitForBroadcast_spec: a
condition that first holds at the third check, a condition that never holds,
and a condition that holds immediately. -/
theorem waitForBroadcast_spec_witness :
    waitForBroadcast (fun j => decide (j = 2)) 5 = (Except.ok (), 2)
    ∧ waitForBroadcast (fun _ => false) 5 = (Except.error "Broadcast timeout", 5)
    ∧ waitForBroadcast (fun _ => true) 5 = (Except.ok (), 0) :=
  ⟨(waitForBroadcast_spec (fun j => decide (j = 2)) 5 2).2.1
      (by decide) (by decide) (by decide),
    (waitForBroadcast_spec (fun _ => false) 5 0).2.2 (fun _ _ => rfl),
    (waitForBroadcast_spec (fun _ => true) 5 0).1 rfl⟩

/- ===================== sendMessage (lib/core.ts lines 75 to 105) ========= -/

/-- The fields of ChatSettingsUser that sendMessage reads and writes. -/
structure UserDetails where
  privateKey : String
  ownAddress : String
  nickname : String
  ownIndex : Int
deriving DecidableEq

/-- Observable side effects of sendMessage: the emitted lifecycle events and
the call into the shared error handler. -/
inductive SendEvent
  | requestInitiated
  | requestUploaded
  | requestError
  | errorHandled
deriving DecidableEq

/-- Environment of one sendMessage call: the address derivation performed by
the signing library on the private key, and the outcomes of the awaited feed
write and of the GSOC broadcast. -/
structure SendEnv where
  deriveAddress : String → String
  writeOk : Bool
  broadcastOk : Bool

/-- getSignature (lib/core.ts lines 193 to 209): re-derives the address from
the private key and throws when it differs from the declared own address;
otherwise returns the hex signature, whose value is irrelevant here. -/
def getSignature (u : UserDetails) (env : SendEnv) : Except String String :=
  if env.deriveAddress u.privateKey = u.ownAddress then Except.ok "sig"
  else Except.error "The provided address does not match the address derived from the private key"

/-- Next own feed index as computed at the top of sendMessage. -/
def nextOwnIndex (ownIndex : Int) : Int := if ownIndex = -1 then 0 else ownIndex + 1

/-- Result of one sendMessage call: how the returned promise settles, the
ownIndex field afterwards, and the observable events in order. -/
structure SendOutcome where
  result : Except String Unit
  ownIndex : Int
  events : List SendEvent

/-- sendMessage (lib/core.ts lines 75 to 105). The message object is built
before the try block, so a getSignature failure escapes the call; inside the
try block a failing feed write or broadcast is caught, emitting
MESSAGE_REQUEST_ERROR and invoking the error handler, and ownIndex is
assigned the next index only after the feed write await has succeeded. -/
def sendMessage (u : UserDetails) (env : SendEnv) : SendOutcome :=
  match getSignature u env with
  | Except.error e => ⟨Except.error e, u.ownIndex, []⟩
  | Except.ok _ =>
    if env.writeOk then
      if env.broadcastOk then
        ⟨Except.ok (), nextOwnIndex u.ownIndex,
          [SendEvent.requestInitiated, SendEvent.requestUploaded]⟩
      else
        ⟨Except.ok (), nextOwnIndex u.ownIndex,
          [SendEvent.requestInitiated, SendEvent.requestUploaded, SendEvent.requestError,
            SendEvent.errorHandled]⟩
    else
      ⟨Except.ok (), u.ownIndex,
        [SendEvent.requestInitiated, SendEvent.requestError, SendEvent.errorHandled]⟩

/-- C4 counterexample: on an identity mismatch, that is when the address
derived from the private key differs from the declared own address, the
promise returned by sendMessage rejects instead of surfacing the failure
through the MESSAGE_REQUEST_ERROR event, because the message object holding
getSignature is built before the try block. -/
theorem sendMessage_rejects_on_identity_mismatch :
    (sendMessage ⟨"key", "addr", "nick", -1⟩
        ⟨fun _ => "other", true, true⟩).result ≠ Except.ok ()
    ∧ (sendMessage ⟨"key", "addr", "nick", -1⟩
        ⟨fun _ => "other", true, true⟩).events = [] := by
  constructor
  · intro h
    simp [sendMessage, getSignature] at h
  · rfl

/-- C4 amended: once getSignature succeeds, that is when the derived address
equals the declared own address, sendMessage never rejects; any internal
failure of the feed write or of the broadcast is captured and surfaced via
the MESSAGE_REQUEST_ERROR event and the error-handler channel. The
identity-mismatch failure itself, however, escapes the call as a rejected
promise with no event emitted. -/
theorem sendMessage_no_reject (u : UserDetails) (env : SendEnv)
    (h : env.deriveAddress u.privateKey = u.ownAddress) :
    (sendMessage u env).result = Except.ok ()
    ∧ ((env.writeOk = false ∨ env.broadcastOk = false) →
        SendEvent.requestError ∈ (sendMessage u env).events
        ∧ SendEvent.errorHandled ∈ (sendMessage u env).events)
    ∧ ((env.deriveAddress u.privateKey = u.ownAddress) = False →
        (sendMessage u env).result ≠ Except.ok ()) := by
  refine ⟨?_, ?_, fun hcon => absurd h (by rw [hcon]; exact id)⟩ <;>
    rw [sendMessage, getSignature, if_pos h] <;>
    by_cases hw : env.writeOk <;> by_cases hbc : env.broadcastOk <;>
    simp [hw, hbc]

/-- Closed instance discharging the hypothesis of sendMessage_no_reject on a
matching identity with a failing write. -/
theorem sendMessage_no_reject_witness :
    (sendMessage ⟨"key", "addr", "nick", 4⟩ ⟨fun _ => "addr", false, true⟩).result
        = Except.ok ()
    ∧ SendEvent.requestError
        ∈ (sendMessage ⟨"key", "addr", "nick", 4⟩ ⟨fun _ => "addr", false, true⟩).events :=
  ⟨(sendMessage_no_reject ⟨"key", "addr", "nick", 4⟩ ⟨fun _ => "addr", false, true⟩ rfl).1,
    ((sendMessage_no_reject ⟨"key", "addr", "nick", 4⟩ ⟨fun _ => "addr", false, true⟩ rfl).2.1
      (Or.inl rfl)).1⟩

/-- C10. The stored own feed index is advanced to the computed next index
exactly when the feed write at that index succeeded; when the write fails, or
when the call aborts beforehand on an identity mismatch, ownIndex is
unchanged, so a subsequent sendMessage computes the same next index. -/
theorem sendMessage_ownIndex (u : UserDetails) (env : SendEnv) :
    (env.writeOk = false → (sendMessage u env).ownIndex = u.ownIndex)
    ∧ ((getSignature u env).isOk = false → (sendMessage u env).ownIndex = u.ownIndex)
    ∧ (env.deriveAddress u.privateKey = u.ownAddress → env.writeOk = true →
        (sendMessage u env).ownIndex = nextOwnIndex u.ownIndex) := by
  refine ⟨fun hw => ?_, fun hsig => ?_, fun h hw => ?_⟩
  · rw [sendMessage]
    rcases hs : getSignature u env with e | s
    · rfl
    · simp [hw]
  · rw [sendMessage]
    rcases hs : getSignature u env with e | s
    · rfl
    · rw [hs] at hsig
      simp [Except.isOk, Except.toBool] at hsig
  · rw [sendMessage, getSignature, if_pos h]
    by_cases hbc : env.broadcastOk <;> simp [hw, hbc]

/-- Closed instance discharging the hypotheses of sendMessage_ownIndex: a
failing write leaves ownIndex at its old value, a succeeding write advances
it to the next index. -/
theorem sendMessage_ownIndex_witness :
    (sendMessage ⟨"key", "addr", "nick", 4⟩ ⟨fun _ => "addr", false, true⟩).ownIndex = 4
    ∧ (sendMessage ⟨"key", "addr", "nick", 4⟩ ⟨fun _ => "addr", true, true⟩).ownIndex = 5 :=
  ⟨(sendMessage_ownIndex ⟨"key", "addr", "nick", 4⟩ ⟨fun _ => "addr", false, true⟩).1 rfl,
    by
      have h := (sendMessage_ownIndex ⟨"key", "addr", "nick", 4⟩
        ⟨fun _ => "addr", true, true⟩).2.2 rfl rfl
      rw [h]
      rfl⟩

/- ===================== readMessage (lib/core.ts lines 567 to 603) ======== -/

/-- The fields of an announced active user that readMessage consumes: the
address and the announced feed index. -/
structure User where
  address : String
  index : Nat
deriving DecidableEq

/-- isUserIndexRead (lib/core.ts lines 490 to 493): returns the cached index
for the address together with the strict-equality check against the index
under consideration. -/
def isUserIndexRead (cache : List (String × Nat)) (userAddress : String) (checkIndex : Nat) :
    Option Nat × Bool :=
  (recordGet cache userAddress, decide (recordGet cache userAddress = some checkIndex))

/-- setUserIndexCache (lib/core.ts lines 495 to 497). -/
def setUserIndexCache (cache : List (String × Nat)) (address : String) (index : Nat) :
    List (String × Nat) :=
  recordSet cache address index

/-- The index the pipeline reads next, as computed by the truthiness
conditional of readMessage: cachedIndex plus one when a cached index exists
and is non-zero, because zero is falsy in JavaScript, and the announced index
otherwise. -/
def readNextIndex (cachedIndex : Option Nat) (announcedIndex : Nat) : Nat :=
  match cachedIndex with
  | some c => if c = 0 then announcedIndex else c + 1
  | none => announcedIndex

/-- readMessage (lib/core.ts lines 567 to 603). The oracle feedRead gives the
outcome of the feed download plus decode at an index, none modelling a
thrown error, which the catch block swallows. Returns the cache afterwards,
the emitted MESSAGE_RECEIVED payloads, and the index read, none when the
call was skipped by the cache check. -/
def readMessage (cache : List (String × Nat)) (user : User)
    (feedRead : Nat → Option MessageData) :
    List (String × Nat) × List MessageData × Option Nat :=
  if (isUserIndexRead cache user.address user.index).2 then (cache, [], none)
  else
    let nextIndex := readNextIndex (isUserIndexRead cache user.address user.index).1 user.index
    match feedRead nextIndex with
    | some msg => (setUserIndexCache cache user.address nextIndex, [msg], some nextIndex)
    | none => (cache, [], some nextIndex)

/-- C6 counterexample: with cached index 1 and announced index 5 the pipeline
reads index 2, not the maximum of cachedIndex plus one and the announced
index, which is 5. -/
theorem readMessage_maxFormula_cex :
    (readMessage [("a", 1)] ⟨"a", 5⟩ (fun _ => some ⟨0, true⟩)).2.2 = some 2
    ∧ (2 : Nat) ≠ max (1 + 1) 5 := by
  constructor
  · rfl
  · decide

/-- C6 amended: on a fetch tick for a user, if the cached index for the
address equals the announced feed index the user is skipped and nothing is
emitted; otherwise the pipeline reads the feed entry at cachedIndex plus one
when a non-zero cached index exists, and at the announced index when the
cache holds nothing or zero for the address. -/
theorem readMessage_spec (cache : List (String × Nat)) (user : User)
    (feedRead : Nat → Option MessageData) :
    (recordGet cache user.address = some user.index →
      readMessage cache user feedRead = (cache, [], none))
    ∧ (recordGet cache user.address ≠ some user.index →
        (readMessage cache user feedRead).2.2
          = some (readNextIndex (recordGet cache user.address) user.index))
    ∧ (∀ c a : Nat, readNextIndex (some c) a = if c = 0 then a else c + 1)
    ∧ (∀ a : Nat, readNextIndex none a = a) := by
  refine ⟨fun h => ?_, fun h => ?_, fun c a => rfl, fun a => rfl⟩
  · rw [readMessage]
    rw [if_pos (by simp [isUserIndexRead, h])]
  · rw [readMessage]
    rw [if_neg (by simp [isUserIndexRead, h])]
    simp only [isUserIndexRead]
    rcases hr : feedRead (readNextIndex (recordGet cache user.address) user.index)
      with _ | msg <;> simp [hr]

/-- Closed instance discharging the hypotheses of readMessage_spec: a cache
hit is skipped, a cache miss reads the computed index. -/
theorem readMessage_spec_witness :
    readMessage [("a", 3)] ⟨"a", 3⟩ (fun _ => some ⟨0, true⟩) = ([("a", 3)], [], none)
    ∧ (readMessage [("a", 1)] ⟨"a", 5⟩ (fun _ => some ⟨0, true⟩)).2.2
        = some (readNextIndex (recordGet [("a", 1)] "a") 5) :=
  ⟨(readMessage_spec [("a", 3)] ⟨"a", 3⟩ (fun _ => some ⟨0, true⟩)).1 rfl,
    (readMessage_spec [("a", 1)] ⟨"a", 5⟩ (fun _ => some ⟨0, true⟩)).2.1 (by decide)⟩

/-- Total number of messages emitted by two consecutive runs of the fetch
pipeline for the same user, the second run starting from the cache the first
run produced. -/
def emittedTwice (cache : List (String × Nat)) (user : User)
    (fr1 fr2 : Nat → Option MessageData) : Nat :=
  ((readMessage (readMessage cache user fr1).1 user fr2).2.1.length : Nat)
    + (readMessage cache user fr1).2.1.length

/-- C7 counterexample: with a stale non-zero cached index 1 and announced
index 3, running the pipeline twice with always-succeeding reads emits two
messages, not one: the first run reads index 2 and caches 2, and the second
run is not skipped because 2 differs from the announced 3, so it reads
index 3 and emits again. -/
theorem readTwice_cex :
    emittedTwice [("a", 1)] ⟨"a", 3⟩ (fun _ => some ⟨0, true⟩) (fun _ => some ⟨1, true⟩) = 2
    ∧ (2 : Nat) ≠ 1 := by
  constructor
  · rfl
  · decide

/-- C7 amended: when the user has no cached read index before the first call,
so that the first read happens at the announced index, and that first read
succeeds, running the pipeline twice with the same announced index emits
exactly one message: the second invocation is skipped by the per-address
read-index cache. -/
theorem readTwice_dedup (cache : List (String × Nat)) (user : User) (m : MessageData)
    (fr1 fr2 : Nat → Option MessageData)
    (hfresh : recordGet cache user.address = none)
    (hsucc : fr1 user.index = some m) :
    emittedTwice cache user fr1 fr2 = 1 := by
  have h1 : readMessage cache user fr1
      = (setUserIndexCache cache user.address user.index, [m], some user.index) := by
    rw [readMessage]
    rw [if_neg (by simp [isUserIndexRead, hfresh])]
    simp [isUserIndexRead, hfresh, readNextIndex, hsucc]
  have h2 : readMessage (setUserIndexCache cache user.address user.index) user fr2
      = (setUserIndexCache cache user.address user.index, [], none) := by
    rw [readMessage]
    rw [if_pos (by simp [isUserIndexRead, setUserIndexCache, recordGet_set])]
  rw [emittedTwice, h1, h2]
  rfl

/-- Closed instance discharging the hypotheses of readTwice_dedup on an
empty cache with an always-succeeding read. -/
theorem readTwice_dedup_witness :
    emittedTwice [] ⟨"a", 3⟩ (fun _ => some ⟨0, true⟩) (fun _ => some ⟨1, true⟩) = 1 :=
  readTwice_dedup [] ⟨"a", 3⟩ ⟨0, true⟩ (fun _ => some ⟨0, true⟩) (fun _ => some ⟨1, true⟩)
    rfl rfl

/- ===================== trimHistory (part_020 lines 580 to 616) =========== -/

/-- Byte length of the decimal JSON rendering of a Nat. -/
def natJsonSize (n : Nat) : Nat := (toString n).length

/-- Byte length of a quoted JSON string, assuming characters needing no
escapes, which holds for hex addresses and event tags. -/
def strJsonSize (s : String) : Nat := s.length + 2

/-- Byte length of the JSON object of one message entry, with the literal
index and timestamp field syntax accounted for. -/
def entryJsonSize (e : MessageEntry) : Nat :=
  9 + natJsonSize e.index + 13 + natJsonSize e.timestamp + 1

/-- Byte length of the JSON object of one event. -/
def eventJsonSize (e : ChatEvent) : Nat :=
  8 + strJsonSize e.type + 13 + natJsonSize e.timestamp + 1

/-- Byte length of a JSON array given element sizes: the two brackets, the
elements and the separating commas. -/
def listJsonSize {α : Type} (sz : α → Nat) (l : List α) : Nat :=
  2 + (l.map sz).sum + (l.length - 1)

/-- Byte length of the JSON object of one user history. -/
def userJsonSize (u : UserHistory) : Nat :=
  10 + listJsonSize eventJsonSize u.events + 18
    + listJsonSize entryJsonSize u.messageEntries + 1

/-- Byte length of one keyed field of the allTimeUsers object. -/
def userPairJsonSize (p : String × UserHistory) : Nat :=
  strJsonSize p.1 + 1 + userJsonSize p.2

/-- Serialized byte size of the history: the Blob size of JSON.stringify of
the history object, for ASCII content. -/
def serializedSize (h : ChatHistory) : Nat :=
  16 + listJsonSize userPairJsonSize h.allTimeUsers + 1

/-- UserMessageEntry of lib/types/user.ts: a message entry tagged with the
address it belongs to. -/
structure UserMessageEntry where
  address : String
  entry : MessageEntry
deriving DecidableEq

/-- The flattening loop of trimHistory: every message entry of every user,
tagged with its address, in iteration order. -/
def flattenHistory (h : ChatHistory) : List UserMessageEntry :=
  h.allTimeUsers.flatMap (fun p => p.2.messageEntries.map (fun e => ⟨p.1, e⟩))

/-- The trim sort comparator: ascending entry timestamp. -/
def umeLeb (a b : UserMessageEntry) : Bool :=
  decide (a.entry.timestamp ≤ b.entry.timestamp)

/-- The rebuild loop of trimHistory: groups the surviving entries back into a
per-address map. Addresses appear in first-occurrence order, each with its
surviving entries in order and an events list reset to nil, exactly as the
source rebuild produces. -/
def rebuildUsers : List UserMessageEntry → List (String × UserHistory)
  | [] => []
  | q :: rest =>
    (q.address,
      ⟨[], q.entry :: ((rest.filter (fun p => decide (p.address = q.address))).map
        (fun p => p.entry))⟩)
      :: rebuildUsers (rest.filter (fun p => decide (p.address ≠ q.address)))
termination_by l => l.length
decreasing_by
  have := List.length_filter_le (fun p => decide (p.address ≠ q.address)) rest
  simp only [List.length_cons]
  omega

/-- trimHistory (part_020 lines 580 to 616): serialize and measure; when the
size is within budget return the history unchanged, otherwise flatten all
entries, sort ascending by timestamp, drop the oldest trimBatch and rebuild.
The source defaults are maxSizeMB two and trimBatch ten thousand. -/
def trimHistory (h : ChatHistory) (maxSizeMB trimBatch : Nat) : ChatHistory :=
  if serializedSize h ≤ maxSizeMB * 1024 * 1024 then h
  else ⟨rebuildUsers (((flattenHistory h).mergeSort umeLeb).drop trimBatch)⟩

/-- Total number of message entries across all users of a history. -/
def totalEntries (h : ChatHistory) : Nat :=
  (h.allTimeUsers.map (fun p => p.2.messageEntries.length)).sum

theorem length_filter_split {β : Type} (p : β → Bool) (l : List β) :
    (l.filter p).length + (l.filter (fun x => ! p x)).length = l.length := by
  induction l with
  | nil => rfl
  | cons x rest ih =>
    by_cases hx : p x = true <;> simp [List.filter_cons, hx] <;> omega

theorem length_flattenHistory (h : ChatHistory) :
    (flattenHistory h).length = totalEntries h := by
  rw [flattenHistory, List.length_flatMap, totalEntries]
  congr 1
  apply List.map_congr_left
  intro p _
  simp

theorem rebuild_total : ∀ n (l : List UserMessageEntry), l.length ≤ n →
    ((rebuildUsers l).map (fun p => p.2.messageEntries.length)).sum = l.length := by
  intro n
  induction n with
  | zero =>
    intro l hl
    have : l = [] := List.length_eq_zero.mp (Nat.le_zero.mp hl)
    subst this
    simp [rebuildUsers]
  | succ n ih =>
    intro l hl
    match l with
    | [] => simp [rebuildUsers]
    | q :: rest =>
      rw [rebuildUsers]
      simp only [List.map_cons, List.sum_cons, List.length_cons]
      have hlen := List.length_filter_le (fun p => decide (p.address ≠ q.address)) rest
      rw [ih (rest.filter (fun p => decide (p.address ≠ q.address)))
        (by simp at hl; omega)]
      have hsplit := length_filter_split (fun p => decide (p.address = q.address)) rest
      have heq : (rest.filter (fun x => ! decide (x.address = q.address)))
          = (rest.filter (fun p => decide (p.address ≠ q.address))) := by
        apply List.filter_congr
        intro x _
        simp
      rw [heq] at hsplit
      simp only [List.length_cons, List.length_map]
      omega

/-- Addresses reachable from the flattened list are addresses of the map. -/
theorem rebuild_keys_sub : ∀ n (l : List UserMessageEntry), l.length ≤ n →
    ∀ a ∈ (rebuildUsers l).map Prod.fst, a ∈ l.map (fun q => q.address) := by
  intro n
  induction n with
  | zero =>
    intro l hl
    have : l = [] := List.length_eq_zero.mp (Nat.le_zero.mp hl)
    subst this
    simp [rebuildUsers]
  | succ n ih =>
    intro l hl a ha
    match l with
    | [] => simp [rebuildUsers] at ha
    | q :: rest =>
      rw [rebuildUsers] at ha
      simp only [List.map_cons, List.mem_cons] at ha ⊢
      rcases ha with rfl | ha
      · exact Or.inl rfl
      · have hlen := List.length_filter_le (fun p => decide (p.address ≠ q.address)) rest
        have := ih (rest.filter (fun p => decide (p.address ≠ q.address)))
          (by simp at hl; omega) a ha
        right
        obtain ⟨x, hx1, hx2⟩ := List.mem_map.mp this
        exact List.mem_map.mpr ⟨x, List.mem_of_mem_filter hx1, hx2⟩

theorem rebuild_keys_nodup : ∀ n (l : List UserMessageEntry), l.length ≤ n →
    ((rebuildUsers l).map Prod.fst).Nodup := by
  intro n
  induction n with
  | zero =>
    intro l hl
    have : l = [] := List.length_eq_zero.mp (Nat.le_zero.mp hl)
    subst this
    simp [rebuildUsers]
  | succ n ih =>
    intro l hl
    match l with
    | [] => simp [rebuildUsers]
    | q :: rest =>
      rw [rebuildUsers]
      simp only [List.map_cons, List.nodup_cons]
      have hlen := List.length_filter_le (fun p => decide (p.address ≠ q.address)) rest
      refine ⟨?_, ih _ (by simp at hl; omega)⟩
      intro hmem
      have := rebuild_keys_sub (rest.filter (fun p => decide (p.address ≠ q.address))).length
        _ (le_refl _) _ hmem
      obtain ⟨x, hx1, hx2⟩ := List.mem_map.mp this
      have := List.of_mem_filter hx1
      simp [hx2] at this

/-- The entries the rebuilt map stores at an address are exactly the
surviving entries tagged with that address, and every rebuilt user has an
empty events list. -/
theorem rebuild_entries : ∀ n (l : List UserMessageEntry), l.length ≤ n →
    ∀ a u, (a, u) ∈ rebuildUsers l →
      u.events = []
      ∧ u.messageEntries = (l.filter (fun q => decide (q.address = a))).map
          (fun q => q.entry) := by
  intro n
  induction n with
  | zero =>
    intro l hl
    have : l = [] := List.length_eq_zero.mp (Nat.le_zero.mp hl)
    subst this
    simp [rebuildUsers]
  | succ n ih =>
    intro l hl a u hmem
    match l with
    | [] => simp [rebuildUsers] at hmem
    | q :: rest =>
      rw [rebuildUsers] at hmem
      rcases List.mem_cons.mp hmem with heq | hmem2
      · rw [Prod.mk.injEq] at heq
        obtain ⟨h1, h2⟩ := heq
        subst h1
        subst h2
        refine ⟨rfl, ?_⟩
        simp [List.filter_cons]
      · have hlen := List.length_filter_le (fun p => decide (p.address ≠ q.address)) rest
        obtain ⟨hev, hme⟩ := ih _ (by simp at hl; omega) a u hmem2
        have hane : a ≠ q.address := by
          intro hcon
          have hkey : a ∈ (rebuildUsers (rest.filter
              (fun p => decide (p.address ≠ q.address)))).map Prod.fst :=
            List.mem_map.mpr ⟨(a, u), hmem2, rfl⟩
          have := rebuild_keys_sub _ _ (le_refl _) _ hkey
          obtain ⟨x, hx1, hx2⟩ := List.mem_map.mp this
          have := List.of_mem_filter hx1
          simp [hx2, hcon] at this
        refine ⟨hev, ?_⟩
        rw [hme, List.filter_filter]
        rw [List.filter_cons]
        have hqa : (decide (q.address = a)) = false := by
          simp
          exact fun hc => hane hc.symm
        rw [if_neg (by simp [hqa])]
        congr 1
        apply List.filter_congr
        intro x _
        by_cases hxa : x.address = a
        · simp [hxa]
          exact hane
        · simp [hxa]

theorem subperm_map {α β : Type} (f : α → β) {l1 l2 : List α} (h : l1.Subperm l2) :
    (l1.map f).Subperm (l2.map f) := by
  obtain ⟨l, hp, hs⟩ := h
  exact ⟨l.map f, hp.map f, hs.map f⟩

theorem sum_le_of_subperm {l1 l2 : List Nat} (h : l1.Subperm l2) : l1.sum ≤ l2.sum := by
  obtain ⟨l, hp, hs⟩ := h
  calc l1.sum = l.sum := hp.sum_eq.symm
    _ ≤ l2.sum := List.Sublist.sum_le_sum hs (fun a _ => Nat.zero_le a)

theorem listJsonSize_le_of_subperm {β : Type} (sz : β → Nat) {l1 l2 : List β}
    (h : l1.Subperm l2) : listJsonSize sz l1 ≤ listJsonSize sz l2 := by
  unfold listJsonSize
  have h1 : (l1.map sz).sum ≤ (l2.map sz).sum := sum_le_of_subperm (subperm_map sz h)
  have h2 : l1.length ≤ l2.length := h.length_le
  omega

theorem survivors_subperm (h : ChatHistory) (trimBatch : Nat) :
    (((flattenHistory h).mergeSort umeLeb).drop trimBatch).Subperm (flattenHistory h) :=
  ((List.drop_sublist _ _).subperm).trans (List.mergeSort_perm _ _).subperm

theorem addresses_flatten {h : ChatHistory} {q : UserMessageEntry}
    (hq : q ∈ flattenHistory h) : q.address ∈ h.allTimeUsers.map Prod.fst := by
  obtain ⟨p, hp, hq2⟩ := List.mem_flatMap.mp hq
  obtain ⟨e, _, rfl⟩ := List.mem_map.mp hq2
  exact List.mem_map.mpr ⟨p, hp, rfl⟩

theorem flatten_filter (users : List (String × UserHistory)) (a : String)
    (hnd : (users.map Prod.fst).Nodup) (u : UserHistory) (hmem : (a, u) ∈ users) :
    ((users.flatMap (fun p => p.2.messageEntries.map
        (fun e => (⟨p.1, e⟩ : UserMessageEntry)))).filter
          (fun q => decide (q.address = a))).map (fun q => q.entry)
      = u.messageEntries := by
  induction users with
  | nil => simp at hmem
  | cons p rest ih =>
    rw [List.flatMap_cons, List.filter_append, List.map_append]
    have hndr : (rest.map Prod.fst).Nodup := (List.nodup_cons.mp (by simpa using hnd)).2
    have hpnotin : p.1 ∉ rest.map Prod.fst := (List.nodup_cons.mp (by simpa using hnd)).1
    rcases List.mem_cons.mp hmem with heq | hmem2
    · subst heq
      have hblock : ((u.messageEntries.map
          (fun e => (⟨(a, u).1, e⟩ : UserMessageEntry))).filter
            (fun q => decide (q.address = a))).map (fun q => q.entry) = u.messageEntries := by
        rw [List.filter_map]
        have hall : (u.messageEntries.filter
            ((fun q => decide (q.address = a)) ∘ (fun e => (⟨(a, u).1, e⟩ : UserMessageEntry))))
            = u.messageEntries := by
          apply List.filter_eq_self.mpr
          intro x _
          simp
        rw [hall, List.map_map]
        exact List.map_id _
      have hrest : ((rest.flatMap (fun p => p.2.messageEntries.map
          (fun e => (⟨p.1, e⟩ : UserMessageEntry)))).filter
            (fun q => decide (q.address = a))) = [] := by
        apply List.filter_eq_nil_iff.mpr
        intro q hq
        have haddr : q.address ∈ rest.map Prod.fst := by
          obtain ⟨p2, hp2, hq2⟩ := List.mem_flatMap.mp hq
          obtain ⟨e, _, rfl⟩ := List.mem_map.mp hq2
          exact List.mem_map.mpr ⟨p2, hp2, rfl⟩
        simp only [decide_eq_true_eq]
        intro hcon
        rw [hcon] at haddr
        exact hpnotin haddr
      rw [hblock, hrest]
      simp
    · have hpa : p.1 ≠ a := by
        intro hcon
        apply hpnotin
        rw [hcon]
        exact List.mem_map.mpr ⟨(a, u), hmem2, rfl⟩
      have hblock : ((p.2.messageEntries.map
          (fun e => (⟨p.1, e⟩ : UserMessageEntry))).filter
            (fun q => decide (q.address = a))) = [] := by
        apply List.filter_eq_nil_iff.mpr
        intro q hq
        obtain ⟨e, _, rfl⟩ := List.mem_map.mp hq
        simpa using hpa
      rw [hblock]
      simpa using ih hndr hmem2

theorem userLookup_of_nodup {users : List (String × UserHistory)}
    (hnd : (users.map Prod.fst).Nodup) {p : String × UserHistory} (hp : p ∈ users) :
    userLookup users p.1 = some p.2 := by
  induction users with
  | nil => simp at hp
  | cons x rest ih =>
    have hndr : (rest.map Prod.fst).Nodup := (List.nodup_cons.mp (by simpa using hnd)).2
    have hxnotin : x.1 ∉ rest.map Prod.fst := (List.nodup_cons.mp (by simpa using hnd)).1
    obtain ⟨xa, xu⟩ := x
    rcases List.mem_cons.mp hp with heq | hmem2
    · subst heq
      simp [userLookup]
    · simp only [userLookup]
      by_cases hax : xa = p.1
      · exfalso
        apply hxnotin
        rw [hax]
        exact List.mem_map.mpr ⟨p, hmem2, rfl⟩
      · rw [if_neg hax]
        exact ih hndr hmem2

theorem umeTrans : ∀ x y z : UserMessageEntry,
    umeLeb x y = true → umeLeb y z = true → umeLeb x z = true := by
  intro x y z
  simp only [umeLeb, decide_eq_true_eq]
  omega

theorem umeTot : ∀ x y : UserMessageEntry, (umeLeb x y || umeLeb y x) = true := by
  intro x y
  simp only [umeLeb, Bool.or_eq_true, decide_eq_true_eq]
  omega

/-- Size of the rebuilt history never exceeds the size of the original. -/
theorem rebuild_size_le (h : ChatHistory) (trimBatch : Nat)
    (hnd : (h.allTimeUsers.map Prod.fst).Nodup) :
    serializedSize ⟨rebuildUsers (((flattenHistory h).mergeSort umeLeb).drop trimBatch)⟩
      ≤ serializedSize h := by
  set S := ((flattenHistory h).mergeSort umeLeb).drop trimBatch with hS
  set R := rebuildUsers S with hR
  set U := h.allTimeUsers with hU
  set g : String → Nat :=
    (fun a => userPairJsonSize (a, (userLookup U a).getD ⟨[], []⟩)) with hg
  have hknd : (R.map Prod.fst).Nodup := by
    rw [hR]
    exact rebuild_keys_nodup S.length S (le_refl _)
  have hksub : ∀ a ∈ R.map Prod.fst, a ∈ U.map Prod.fst := by
    intro a ha
    rw [hR] at ha
    have h1 := rebuild_keys_sub S.length S (le_refl _) a ha
    obtain ⟨q, hq1, hq2⟩ := List.mem_map.mp h1
    have hq3 : q ∈ flattenHistory h := by
      have := (survivors_subperm h trimBatch).subset
      exact this hq1
    rw [← hq2]
    exact addresses_flatten hq3
  have hstepA : (R.map userPairJsonSize).sum ≤ (R.map (fun p => g p.1)).sum := by
    apply List.sum_le_sum
    intro p hp
    obtain ⟨a, u⟩ := p
    obtain ⟨hev, hme⟩ := rebuild_entries S.length S (le_refl _) a u (by rw [hR] at hp; exact hp)
    have hain : a ∈ U.map Prod.fst := hksub a (List.mem_map.mpr ⟨(a, u), hp, rfl⟩)
    have hsome : (userLookup U a).isSome := userLookup_isSome_of_mem hain
    rcases hlook : userLookup U a with _ | ua
    · rw [hlook] at hsome
      simp at hsome
    · have hpair : (a, ua) ∈ U := userLookup_mem hlook
      have hflat : ((flattenHistory h).filter (fun q => decide (q.address = a))).map
          (fun q => q.entry) = ua.messageEntries := flatten_filter U a hnd ua hpair
      have hsubp : u.messageEntries.Subperm ua.messageEntries := by
        rw [hme, ← hflat]
        exact subperm_map _ ((survivors_subperm h trimBatch).filter _)
      have hentrysize : listJsonSize entryJsonSize u.messageEntries
          ≤ listJsonSize entryJsonSize ua.messageEntries :=
        listJsonSize_le_of_subperm _ hsubp
      have heventsize : listJsonSize eventJsonSize u.events
          ≤ listJsonSize eventJsonSize ua.events := by
        rw [hev]
        unfold listJsonSize
        simp only [List.map_nil, List.sum_nil, List.length_nil]
        omega
      simp only [hg, userPairJsonSize, userJsonSize, hlook, Option.getD_some]
      omega
  have hstepB : (R.map (fun p => g p.1)).sum = ((R.map Prod.fst).map g).sum := by
    rw [List.map_map]
    rfl
  have hstepC : ((R.map Prod.fst).map g).sum ≤ ((U.map Prod.fst).map g).sum := by
    apply sum_le_of_subperm
    apply subperm_map
    exact List.subperm_of_subset hknd hksub
  have hstepD : ((U.map Prod.fst).map g).sum = (U.map userPairJsonSize).sum := by
    rw [List.map_map]
    congr 1
    apply List.map_congr_left
    intro p hp
    simp only [Function.comp, hg]
    rw [userLookup_of_nodup hnd hp]
    rfl
  have hlenle : R.length ≤ U.length := by
    have h1 : (R.map Prod.fst).length ≤ (U.map Prod.fst).length :=
      (List.subperm_of_subset hknd hksub).length_le
    simpa using h1
  have hsums : (R.map userPairJsonSize).sum ≤ (U.map userPairJsonSize).sum := by
    omega
  show 16 + listJsonSize userPairJsonSize R + 1 ≤ 16 + listJsonSize userPairJsonSize U + 1
  unfold listJsonSize
  omega

/-- C8. Trim bound: for histories with no duplicate address keys, as
JavaScript objects guarantee, a history whose serialized size is within the
budget of maxSizeMB is returned unchanged, and a history over the budget is
trimmed to a history whose serialized size is at most the pre-trim size and
which contains exactly totalEntries minus trimBatch message entries,
truncated at zero, namely the survivors of dropping the trimBatch oldest
entries by timestamp: every dropped entry has a timestamp at most that of
every kept entry. The source instantiates maxSizeMB to 2 and trimBatch to
10000. -/
theorem trimHistory_spec (h : ChatHistory) (maxSizeMB trimBatch : Nat)
    (hnd : (h.allTimeUsers.map Prod.fst).Nodup) :
    (serializedSize h ≤ maxSizeMB * 1024 * 1024 → trimHistory h maxSizeMB trimBatch = h)
    ∧ (maxSizeMB * 1024 * 1024 < serializedSize h →
        serializedSize (trimHistory h maxSizeMB trimBatch) ≤ serializedSize h
        ∧ totalEntries (trimHistory h maxSizeMB trimBatch) = totalEntries h - trimBatch
        ∧ ∀ d ∈ ((flattenHistory h).mergeSort umeLeb).take trimBatch,
            ∀ k ∈ ((flattenHistory h).mergeSort umeLeb).drop trimBatch,
              d.entry.timestamp ≤ k.entry.timestamp) := by
  constructor
  · intro hsmall
    rw [trimHistory, if_pos hsmall]
  · intro hbig
    have hneg : ¬ serializedSize h ≤ maxSizeMB * 1024 * 1024 := by omega
    rw [trimHistory, if_neg hneg]
    refine ⟨rebuild_size_le h trimBatch hnd, ?_, ?_⟩
    · show totalEntries ⟨rebuildUsers (((flattenHistory h).mergeSort umeLeb).drop trimBatch)⟩
        = totalEntries h - trimBatch
      unfold totalEntries
      rw [rebuild_total (((flattenHistory h).mergeSort umeLeb).drop trimBatch).length _
        (le_refl _)]
      rw [List.length_drop, (List.mergeSort_perm (flattenHistory h) umeLeb).length_eq,
        length_flattenHistory]
      rfl
    · have hsorted := List.sorted_mergeSort umeTrans umeTot (flattenHistory h)
      have hsplit := List.take_append_drop trimBatch ((flattenHistory h).mergeSort umeLeb)
      rw [← hsplit] at hsorted
      have := (List.pairwise_append.mp hsorted).2.2
      intro d hd k hk
      have hle := this d hd k hk
      simpa [umeLeb] using hle

/-- Closed instance discharging the hypotheses of trimHistory_spec: a small
history is left unchanged under a one-megabyte budget, and under a zero
budget the same history is trimmed by one entry, keeping the newest. -/
theorem trimHistory_spec_witness :
    trimHistory (ChatHistory.mk [("a", ⟨[], [⟨0, 5⟩, ⟨1, 9⟩]⟩)]) 1 1
        = ChatHistory.mk [("a", ⟨[], [⟨0, 5⟩, ⟨1, 9⟩]⟩)]
    ∧ serializedSize (trimHistory (ChatHistory.mk [("a", ⟨[], [⟨0, 5⟩, ⟨1, 9⟩]⟩)]) 0 1)
        ≤ serializedSize (ChatHistory.mk [("a", ⟨[], [⟨0, 5⟩, ⟨1, 9⟩]⟩)])
    ∧ totalEntries (trimHistory (ChatHistory.mk [("a", ⟨[], [⟨0, 5⟩, ⟨1, 9⟩]⟩)]) 0 1)
        = totalEntries (ChatHistory.mk [("a", ⟨[], [⟨0, 5⟩, ⟨1, 9⟩]⟩)]) - 1 :=
  ⟨(trimHistory_spec (ChatHistory.mk [("a", ⟨[], [⟨0, 5⟩, ⟨1, 9⟩]⟩)]) 1 1 (by decide)).1
      (by decide),
    ((trimHistory_spec (ChatHistory.mk [("a", ⟨[], [⟨0, 5⟩, ⟨1, 9⟩]⟩)]) 0 1 (by decide)).2
      (by decide)).1,
    ((trimHistory_spec (ChatHistory.mk [("a", ⟨[], [⟨0, 5⟩, ⟨1, 9⟩]⟩)]) 0 1 (by decide)).2
      (by decide)).2.1⟩

end SwarmChat
